import Mathlib

/-!
Verification development for the damage-PMF engine of the `dnd` repository
(`src/math.rs`, together with the data model and the `AC_MIN`/`AC_MAX`
constants of `src/main.rs`).

Modelling conventions:
* `f64` probabilities are modelled as exact rationals `ℚ`.  Every arithmetic
  step of the source is a field operation, so the rational model computes the
  exact values the floating-point code approximates; tolerance statements of
  the specification ("1.0 ± 1e-9") become exact equalities.
* `HashMap<u32, f64>` is modelled as an insertion-ordered association list
  `List (ℕ × ℚ)`; the Rust idiom `*map.entry(k).or_insert(0.0) += v` (also
  `or_default`) is `addTo`.  Every quantity the claims mention (lookups,
  sums, means) is invariant under map iteration order, and rational addition
  is commutative and associative, so the fixed iteration order of the list
  model is a faithful rendering of the unspecified `HashMap` order.
* Machine integers (`u8`, `u32`, `i32`) are modelled on `ℕ` / `ℤ`; the
  source performs no wrapping arithmetic (overflow panics in debug builds).
* `std_dev = variance.sqrt()` leaves `ℚ`; no claim mentions it, so the
  `Stats` embedding keeps `variance` and omits the square root.
-/

namespace DnD

/-- Rust `enum Die { D4 = 4, D6 = 6, D8 = 8, D10 = 10, D20 = 20 }`. -/
inductive Die where
  | D4
  | D6
  | D8
  | D10
  | D20
deriving DecidableEq, Repr

/-- The numeric value of a `Die` (`die as u32` / `die as u8`). -/
def Die.sides : Die → ℕ
  | .D4 => 4
  | .D6 => 6
  | .D8 => 8
  | .D10 => 10
  | .D20 => 20

/-- Rust `struct Attack { ab: i32, flat: u8, dice: [(Die, u8); 5] }`.
The fixed five-entry array is modelled as a list of (die, count) pairs. -/
structure Attack where
  ab : ℤ
  flat : ℕ
  dice : List (Die × ℕ)

/-- Rust `struct Build` restricted to the fields the math module reads
(`attacks`, `savage`, `crit_enabled`); the remaining fields are cached
outputs written by the UI layer, not inputs of the functions below. -/
structure Build where
  attacks : List Attack
  savage : Bool
  crit_enabled : Bool

/-- `type PMF = HashMap<u32, f64>` as an insertion-ordered association list. -/
abbrev PMF := List (ℕ × ℚ)

/-- `type CDF = Vec<(u32, f64)>`. -/
abbrev CDF := List (ℕ × ℚ)

/-- The map update `*map.entry(k).or_insert(0.0) += v`: add `v` to the
entry at key `k`, inserting `0.0 + v = v` when the key is absent. -/
def addTo : PMF → ℕ → ℚ → PMF
  | [], k, v => [(k, v)]
  | kv :: rest, k, v =>
      if kv.1 = k then (kv.1, kv.2 + v) :: rest else kv :: addTo rest k v

/-- Map lookup with default `0`: the probability a `PMF` assigns to key `k`
(an absent key carries no mass). -/
def lookupD : PMF → ℕ → ℚ
  | [], _ => 0
  | kv :: rest, k => if kv.1 = k then kv.2 else lookupD rest k

/-- Total probability mass of a map: the sum the specification's
normalization properties are about. -/
def psum (m : PMF) : ℚ := (m.map (fun kv => kv.2)).sum

/-- Rust `convolve`: each pair of outcomes `(x from a, y from b)`
contributes `px * py` to bucket `x + y`. -/
def convolve (a b : PMF) : PMF :=
  a.foldl (fun result x =>
    b.foldl (fun result y => addTo result (x.1 + y.1) (x.2 * y.2)) result) []

/-- Rust `convolve_many`: `pmfs.iter().cloned().reduce(convolve)
.unwrap_or_default()` — a left fold of `convolve` over the list, the empty
map when the list is empty. -/
def convolve_many : List PMF → PMF
  | [] => []
  | p :: ps => ps.foldl (fun a b => convolve a b) p

/-- Rust `scale`: multiply every probability by `factor`. -/
def scale (pmf : PMF) (factor : ℚ) : PMF :=
  pmf.map (fun kv => (kv.1, kv.2 * factor))

/-- Rust `shift`: add a constant `offset` to every outcome value. -/
def shift (pmf : PMF) (offset : ℕ) : PMF :=
  pmf.map (fun kv => (kv.1 + offset, kv.2))

/-- Rust `die_pmf`: `1/sides` at each outcome `1..=sides`. -/
def die_pmf (die : Die) : PMF :=
  (List.range' 1 die.sides).map (fun i => (i, 1 / (die.sides : ℚ)))

/-- Rust `best_of_two`: distribution of the maximum of two independent
draws from `pmf`, as the double loop bucketing `px * py` at `max x y`. -/
def best_of_two (pmf : PMF) : PMF :=
  pmf.foldl (fun result x =>
    pmf.foldl (fun result y => addTo result (max x.1 y.1) (x.2 * y.2)) result) []

/-- Rust `hit_chance` before its final clamp to `[0, 1]`:
`(21 - (ac - ab).clamp(2, 20)) / 20`, minus `1/20` when `ab + 1 >= ac`,
plus `1/20` when `ab + 20 < ac`. -/
def hit_chance_pre (ab ac : ℤ) : ℚ :=
  let needed_roll : ℤ := max 2 (min 20 (ac - ab))
  let possible_hits : ℤ := 21 - needed_roll
  let chance : ℚ := (possible_hits : ℚ) / 20
  let chance := if ab + 1 ≥ ac then chance - 1 / 20 else chance
  let chance := if ab + 20 < ac then chance + 1 / 20 else chance
  chance

/-- Rust `hit_chance`: the pre-clamp value clamped to `[0, 1]`. -/
def hit_chance (ab ac : ℤ) : ℚ :=
  max 0 (min 1 (hit_chance_pre ab ac))

/-- Rust `attack_pmf`.  Base damage: one `die_pmf` per die instance,
convolved, shifted by `flat`, best-of-two when savage.  Crit damage: the
same with doubled die counts.  The result weights the base distribution by
`hit_chance - crit_chance`, adds the crit distribution weighted by
`crit_chance`, and adds mass `1 - hit_chance` at damage 0 for a miss. -/
def attack_pmf (attack : Attack) (ac : ℕ) (crit_enabled savage_attacker : Bool) : PMF :=
  let base_pmfs := attack.dice.flatMap (fun dc => List.replicate dc.2 (die_pmf dc.1))
  let base_dmg_dist := convolve_many base_pmfs
  let base_pmf := shift base_dmg_dist attack.flat
  let base_pmf := if savage_attacker then best_of_two base_pmf else base_pmf
  let crit_pmfs := attack.dice.flatMap (fun dc => List.replicate (2 * dc.2) (die_pmf dc.1))
  let crit_dmg_dist := convolve_many crit_pmfs
  let crit_pmf := shift crit_dmg_dist attack.flat
  let crit_pmf := if savage_attacker then best_of_two crit_pmf else crit_pmf
  let hc := hit_chance attack.ab (ac : ℤ)
  let crit_chance : ℚ := if crit_enabled then 1 / 20 else 0
  let split_hit_chance := hc - crit_chance
  let pmf := scale base_pmf split_hit_chance
  let crit_pmf := scale crit_pmf crit_chance
  let pmf := crit_pmf.foldl (fun acc kv => addTo acc kv.1 kv.2) pmf
  addTo pmf 0 (1 - hc)

/-- Rust `mean`: the expected value `Σ val * prob` over the map. -/
def mean (pmf : PMF) : ℚ :=
  (pmf.map (fun kv => (kv.1 : ℚ) * kv.2)).sum

/-- Rust `variance`: `Σ (val - mean)^2 * prob` over the map. -/
def variance (pmf : PMF) : ℚ :=
  let m := mean pmf
  (pmf.map (fun kv => ((kv.1 : ℚ) - m) * ((kv.1 : ℚ) - m) * kv.2)).sum

/-- Rust `greater_than`: the double loop accumulating `a_prob * b_prob`
over all pairs where `a_val > b_val`. -/
def greater_than (a b : PMF) : ℚ :=
  a.foldl (fun prob x =>
    b.foldl (fun prob y => if x.1 > y.1 then prob + x.2 * y.2 else prob) prob) 0

/-- Rust `chance_at_least`: total probability of outcomes `≥ threshold`. -/
def chance_at_least (pmf : PMF) (threshold : ℕ) : ℚ :=
  ((pmf.filter (fun kv => threshold ≤ kv.1)).map (fun kv => kv.2)).sum

/-- Running cumulative sums for `cdf` (the `cumulative` accumulator of the
Rust loop). -/
def cdfRun : ℚ → List (ℕ × ℚ) → CDF
  | _, [] => []
  | c, kv :: rest => (kv.1, c + kv.2) :: cdfRun (c + kv.2) rest

/-- Rust `cdf`: sort the map's entries ascending by outcome value and emit
running cumulative probabilities. -/
def cdf (pmf : PMF) : CDF :=
  cdfRun 0 (pmf.mergeSort (fun x y => decide (x.1 ≤ y.1)))

/-- Rust `struct Stats` (with `variance` in place of `std_dev`, see the
file comment). -/
structure Stats where
  pmf : PMF
  cdf : CDF
  mean : ℚ
  variance : ℚ
  greater_then_chance : ℚ
  min_dmg_chance : ℚ

/-- Rust `calc_build_stats`: convolve the per-attack PMFs at `sim_ac` and
derive the statistics bundle; `greater_then_chance` keeps its `Default`
value `0.0` (the coordinator fills it in later). -/
def calc_build_stats (build : Build) (sim_ac : ℕ) (desired_min_dmg : ℕ) : Stats :=
  let p := convolve_many
    (build.attacks.map (fun a => attack_pmf a sim_ac build.crit_enabled build.savage))
  { pmf := p
    cdf := cdf p
    mean := mean p
    variance := variance p
    greater_then_chance := 0
    min_dmg_chance := chance_at_least p desired_min_dmg }

/-- Rust `const AC_MIN: u8 = 10` (src/main.rs). -/
def AC_MIN : ℕ := 10

/-- Rust `const AC_MAX: u8 = 24` (src/main.rs). -/
def AC_MAX : ℕ := 24

/-- Rust `calc_build_means`: for each ac in `AC_MIN..AC_MAX`, the mean of
the aggregate (convolved) PMF of the build's attacks at that ac. -/
def calc_build_means (build : Build) : List ℚ :=
  (List.range' AC_MIN (AC_MAX - AC_MIN)).map (fun ac =>
    mean (convolve_many
      (build.attacks.map (fun a => attack_pmf a ac build.crit_enabled build.savage))))

/-! ## Auxiliary definitions used by the statements below -/

/-- Weighted total of a map: `Σ (w key) * value`.  `psum` and `mean` are
the instances `w = 1` and `w = Nat.cast`. -/
def wsum (w : ℕ → ℚ) (m : PMF) : ℚ := (m.map (fun kv => w kv.1 * kv.2)).sum

/-- All probability values stored in the map are non-negative. -/
def nonneg (m : PMF) : Prop := ∀ kv ∈ m, 0 ≤ kv.2

/-- The tie probability the specification's greater-than complement names:
the sum over every value `v` of `a[v] * b[v]` (keys absent from `a`
contribute `a[v] = 0`, so the keys of `a` index the sum). -/
def tie_mass (a b : PMF) : ℚ :=
  (a.map (fun kv => lookupD a kv.1 * lookupD b kv.1)).sum

/-- The end-to-end scenario attack of the specification:
`ab = 10, flat = 4, dice = {D4: 1}` (remaining die counts zero). -/
def atkC3 : Attack := ⟨10, 4, [(Die.D4, 1), (Die.D6, 0), (Die.D8, 0), (Die.D10, 0), (Die.D20, 0)]⟩

/-- A degenerate attack: every die count zero and flat zero. -/
def atkDeg : Attack := ⟨0, 0, [(Die.D4, 0), (Die.D6, 0), (Die.D8, 0), (Die.D10, 0), (Die.D20, 0)]⟩

/-- A one-attack build used to instantiate universally quantified theorems. -/
def buildC9 : Build := ⟨[atkC3], true, false⟩

/-! ## Helper lemmas: weighted totals of a map -/

lemma wsum_addTo (w : ℕ → ℚ) (m : PMF) (k : ℕ) (v : ℚ) :
    wsum w (addTo m k v) = wsum w m + w k * v := by
  induction m with
  | nil => simp [addTo, wsum]
  | cons kv rest ih =>
      rcases eq_or_ne kv.1 k with h | h
      · subst h
        simp only [addTo, if_true, eq_self_iff_true, wsum, List.map_cons, List.sum_cons]
        ring
      · simp only [addTo, if_neg h, wsum, List.map_cons, List.sum_cons] at ih ⊢
        rw [ih]; ring

lemma wsum_foldl_addTo {α : Type} (w : ℕ → ℚ) (key : α → ℕ) (val : α → ℚ)
    (l : List α) : ∀ init : PMF,
    wsum w (l.foldl (fun acc p => addTo acc (key p) (val p)) init)
      = wsum w init + (l.map (fun p => w (key p) * val p)).sum := by
  induction l with
  | nil => intro init; simp
  | cons p l ih =>
      intro init
      simp only [List.foldl_cons, List.map_cons, List.sum_cons]
      rw [ih, wsum_addTo]; ring

lemma wsum_pairFold {α β : Type} (w : ℕ → ℚ) (key : α → β → ℕ) (val : α → β → ℚ)
    (b : List β) (a : List α) : ∀ init : PMF,
    wsum w (a.foldl (fun res x =>
        b.foldl (fun res y => addTo res (key x y) (val x y)) res) init)
      = wsum w init
        + (a.map (fun x => (b.map (fun y => w (key x y) * val x y)).sum)).sum := by
  induction a with
  | nil => intro init; simp
  | cons x a ih =>
      intro init
      simp only [List.foldl_cons, List.map_cons, List.sum_cons]
      rw [ih, wsum_foldl_addTo w (key x) (val x) b init]; ring

lemma psum_eq_wsum (m : PMF) : psum m = wsum (fun _ => 1) m := by
  simp [psum, wsum]

lemma mean_eq_wsum (m : PMF) : mean m = wsum (fun k => (k : ℚ)) m := rfl

lemma wsum_convolve (w : ℕ → ℚ) (a b : PMF) :
    wsum w (convolve a b)
      = (a.map (fun x => (b.map (fun y => w (x.1 + y.1) * (x.2 * y.2))).sum)).sum := by
  unfold convolve
  rw [wsum_pairFold w (fun x y => x.1 + y.1) (fun x y => x.2 * y.2) b a []]
  simp [wsum]

lemma wsum_best_of_two (w : ℕ → ℚ) (p : PMF) :
    wsum w (best_of_two p)
      = (p.map (fun x => (p.map (fun y => w (max x.1 y.1) * (x.2 * y.2))).sum)).sum := by
  unfold best_of_two
  rw [wsum_pairFold w (fun x y => max x.1 y.1) (fun x y => x.2 * y.2) p p []]
  simp [wsum]

/-! ## Helper lemmas: total mass of each operation -/

lemma psum_addTo (m : PMF) (k : ℕ) (v : ℚ) : psum (addTo m k v) = psum m + v := by
  rw [psum_eq_wsum, psum_eq_wsum, wsum_addTo, one_mul]

lemma psum_merge_foldl (l : List (ℕ × ℚ)) (init : PMF) :
    psum (l.foldl (fun acc kv => addTo acc kv.1 kv.2) init) = psum init + psum l := by
  rw [psum_eq_wsum, psum_eq_wsum,
    wsum_foldl_addTo (fun _ => 1) (fun kv => kv.1) (fun kv => kv.2) l init]
  simp [wsum, psum]

lemma psum_convolve (a b : PMF) : psum (convolve a b) = psum a * psum b := by
  rw [psum_eq_wsum, wsum_convolve]
  simp only [one_mul, List.sum_map_mul_left]
  rw [psum, psum, ← List.sum_map_mul_right]

lemma psum_best_of_two (p : PMF) : psum (best_of_two p) = psum p * psum p := by
  rw [psum_eq_wsum, wsum_best_of_two]
  simp only [one_mul, List.sum_map_mul_left]
  rw [psum, ← List.sum_map_mul_right]

lemma psum_scale (m : PMF) (f : ℚ) : psum (scale m f) = psum m * f := by
  simp only [psum, scale, List.map_map, Function.comp_def, List.sum_map_mul_right]

lemma psum_shift (m : PMF) (o : ℕ) : psum (shift m o) = psum m := by
  simp only [psum, shift, List.map_map, Function.comp_def]

lemma psum_die_pmf (d : Die) : psum (die_pmf d) = 1 := by
  have h : (d.sides : ℚ) ≠ 0 := by cases d <;> norm_num [Die.sides]
  simp only [psum, die_pmf, List.map_map, Function.comp_def]
  rw [List.map_const']
  rw [List.sum_replicate, List.length_range']
  rw [nsmul_eq_mul, mul_one_div, div_self h]

lemma psum_foldl_convolve_one : ∀ (ps : List PMF) (acc : PMF), psum acc = 1 →
    (∀ p ∈ ps, psum p = 1) → psum (ps.foldl (fun a b => convolve a b) acc) = 1
  | [], _, ha, _ => ha
  | p :: ps, acc, ha, h => by
      simp only [List.foldl_cons]
      exact psum_foldl_convolve_one ps _
        (by rw [psum_convolve, ha, h p (List.mem_cons_self p ps), one_mul])
        (fun q hq => h q (List.mem_cons_of_mem p hq))

lemma psum_convolve_many_one (ps : List PMF) (h : ∀ p ∈ ps, psum p = 1)
    (hne : ps ≠ []) : psum (convolve_many ps) = 1 := by
  match ps, hne with
  | p :: ps, _ =>
      exact psum_foldl_convolve_one ps p (h p (List.mem_cons_self p ps))
        (fun q hq => h q (List.mem_cons_of_mem p hq))

/-! ## Helper lemmas: hit_chance -/

lemma hit_chance_pre_eq (ab ac : ℤ) :
    hit_chance_pre ab ac =
      if ac - ab ≤ 1 then 18 / 20
      else if 20 < ac - ab then 2 / 20
      else ((21 - (ac - ab) : ℤ) : ℚ) / 20 := by
  unfold hit_chance_pre
  rcases le_or_lt (ac - ab) 1 with h1 | h1
  · have hmax : max 2 (min 20 (ac - ab)) = 2 := by
      rw [min_eq_right (by omega)]; exact max_eq_left (by omega)
    have hc1 : ab + 1 ≥ ac := by omega
    have hc2 : ¬ (ab + 20 < ac) := by omega
    simp only [hmax, if_pos hc1, if_neg hc2, if_pos h1]
    norm_num
  · rcases lt_or_le 20 (ac - ab) with h2 | h2
    · have hmax : max 2 (min 20 (ac - ab)) = 20 := by
        rw [min_eq_left (by omega)]; exact max_eq_right (by omega)
      have hc1 : ¬ (ab + 1 ≥ ac) := by omega
      have hc2 : ab + 20 < ac := by omega
      simp only [hmax, if_neg hc1, if_pos hc2, if_neg (by omega : ¬ (ac - ab ≤ 1)), if_pos h2]
      norm_num
    · have hmax : max 2 (min 20 (ac - ab)) = ac - ab := by
        rw [min_eq_right (by omega)]; exact max_eq_right (by omega)
      have hc1 : ¬ (ab + 1 ≥ ac) := by omega
      have hc2 : ¬ (ab + 20 < ac) := by omega
      simp only [hmax, if_neg hc1, if_neg hc2, if_neg (by omega : ¬ (ac - ab ≤ 1)),
        if_neg (by omega : ¬ (20 < ac - ab))]

lemma hit_chance_pre_bounds (ab ac : ℤ) :
    1 / 20 ≤ hit_chance_pre ab ac ∧ hit_chance_pre ab ac ≤ 19 / 20 := by
  rw [hit_chance_pre_eq]
  split_ifs with h1 h2
  · norm_num
  · norm_num
  · have hlo : ((1 : ℚ)) ≤ ((21 - (ac - ab) : ℤ) : ℚ) := by
      exact_mod_cast (by omega : (1:ℤ) ≤ 21 - (ac - ab))
    have hhi : ((21 - (ac - ab) : ℤ) : ℚ) ≤ 19 := by
      exact_mod_cast (by omega : (21 - (ac - ab) : ℤ) ≤ 19)
    constructor
    · gcongr
    · gcongr

lemma hit_chance_eq_pre (ab ac : ℤ) : hit_chance ab ac = hit_chance_pre ab ac := by
  have h := hit_chance_pre_bounds ab ac
  unfold hit_chance
  rw [min_eq_right (h.2.trans (by norm_num)),
    max_eq_right ((by norm_num : (0:ℚ) ≤ 1/20).trans h.1)]

lemma hit_chance_bounds (ab ac : ℤ) :
    1 / 20 ≤ hit_chance ab ac ∧ hit_chance ab ac ≤ 19 / 20 := by
  rw [hit_chance_eq_pre]; exact hit_chance_pre_bounds ab ac

/-! ## Helper lemmas: non-negativity of stored probabilities -/

lemma nonneg_nil : nonneg [] := by intro kv hkv; cases hkv

lemma nonneg_addTo : ∀ (m : PMF) (k : ℕ) (v : ℚ), nonneg m → 0 ≤ v → nonneg (addTo m k v)
  | [], k, v, _, hv => by
      intro kv hkv
      rcases List.mem_singleton.mp hkv with rfl
      exact hv
  | e :: rest, k, v, hm, hv => by
      intro kv hkv
      rcases eq_or_ne e.1 k with h | h
      · rw [addTo, if_pos h] at hkv
        rcases List.mem_cons.mp hkv with rfl | hkv
        · exact add_nonneg (hm e (List.mem_cons_self e rest)) hv
        · exact hm kv (List.mem_cons_of_mem _ hkv)
      · rw [addTo, if_neg h] at hkv
        rcases List.mem_cons.mp hkv with rfl | hkv
        · exact hm _ (List.mem_cons_self _ _)
        · exact nonneg_addTo rest k v
            (fun q hq => hm q (List.mem_cons_of_mem _ hq)) hv kv hkv

lemma nonneg_foldl_addTo {α : Type} (key : α → ℕ) (val : α → ℚ) :
    ∀ (l : List α) (init : PMF), nonneg init → (∀ p ∈ l, 0 ≤ val p) →
      nonneg (l.foldl (fun acc p => addTo acc (key p) (val p)) init)
  | [], _, hi, _ => hi
  | p :: l, init, hi, hl => by
      simp only [List.foldl_cons]
      exact nonneg_foldl_addTo key val l _
        (nonneg_addTo _ _ _ hi (hl p (List.mem_cons_self p l)))
        (fun q hq => hl q (List.mem_cons_of_mem _ hq))

lemma nonneg_pairFold {α β : Type} (key : α → β → ℕ) (val : α → β → ℚ) (b : List β) :
    ∀ (a : List α) (init : PMF), nonneg init → (∀ x ∈ a, ∀ y ∈ b, 0 ≤ val x y) →
      nonneg (a.foldl (fun res x =>
        b.foldl (fun res y => addTo res (key x y) (val x y)) res) init)
  | [], _, hi, _ => hi
  | x :: a, init, hi, h => by
      simp only [List.foldl_cons]
      exact nonneg_pairFold key val b a _
        (nonneg_foldl_addTo (key x) (val x) b init hi
          (fun y hy => h x (List.mem_cons_self x a) y hy))
        (fun q hq y hy => h q (List.mem_cons_of_mem _ hq) y hy)

lemma nonneg_convolve {a b : PMF} (ha : nonneg a) (hb : nonneg b) :
    nonneg (convolve a b) := by
  unfold convolve
  exact nonneg_pairFold (fun x y => x.1 + y.1) (fun x y => x.2 * y.2) b a [] nonneg_nil
    (fun x hx y hy => mul_nonneg (ha x hx) (hb y hy))

lemma nonneg_best_of_two {p : PMF} (hp : nonneg p) : nonneg (best_of_two p) := by
  unfold best_of_two
  exact nonneg_pairFold (fun x y => max x.1 y.1) (fun x y => x.2 * y.2) p p [] nonneg_nil
    (fun x hx y hy => mul_nonneg (hp x hx) (hp y hy))

lemma nonneg_scale {m : PMF} {f : ℚ} (hm : nonneg m) (hf : 0 ≤ f) :
    nonneg (scale m f) := by
  intro kv hkv
  obtain ⟨e, he, rfl⟩ := List.mem_map.mp hkv
  exact mul_nonneg (hm e he) hf

lemma nonneg_shift {m : PMF} (hm : nonneg m) (o : ℕ) : nonneg (shift m o) := by
  intro kv hkv
  obtain ⟨e, he, rfl⟩ := List.mem_map.mp hkv
  exact hm e he

lemma nonneg_die_pmf (d : Die) : nonneg (die_pmf d) := by
  intro kv hkv
  obtain ⟨e, _, rfl⟩ := List.mem_map.mp hkv
  positivity

lemma nonneg_foldl_convolve : ∀ (ps : List PMF) (acc : PMF), nonneg acc →
    (∀ p ∈ ps, nonneg p) → nonneg (ps.foldl (fun a b => convolve a b) acc)
  | [], _, ha, _ => ha
  | p :: ps, acc, ha, h => by
      simp only [List.foldl_cons]
      exact nonneg_foldl_convolve ps _
        (nonneg_convolve ha (h p (List.mem_cons_self p ps)))
        (fun q hq => h q (List.mem_cons_of_mem _ hq))

lemma nonneg_convolve_many : ∀ (ps : List PMF), (∀ p ∈ ps, nonneg p) →
    nonneg (convolve_many ps)
  | [], _ => nonneg_nil
  | p :: ps, h =>
      nonneg_foldl_convolve ps p (h p (List.mem_cons_self p ps))
        (fun q hq => h q (List.mem_cons_of_mem _ hq))

lemma nonneg_merge_foldl {l init : PMF} (hi : nonneg init) (hl : nonneg l) :
    nonneg (l.foldl (fun acc kv => addTo acc kv.1 kv.2) init) :=
  nonneg_foldl_addTo (fun kv : ℕ × ℚ => kv.1) (fun kv : ℕ × ℚ => kv.2) l init hi hl


/-! ## Helper lemmas: greater_than as a double sum, lookups -/

lemma gt_innerFold (x : ℕ × ℚ) (b : List (ℕ × ℚ)) : ∀ init : ℚ,
    b.foldl (fun prob y => if x.1 > y.1 then prob + x.2 * y.2 else prob) init
      = init + (b.map (fun y => if x.1 > y.1 then x.2 * y.2 else 0)).sum := by
  induction b with
  | nil => intro init; simp
  | cons y b ih =>
      intro init
      simp only [List.foldl_cons, List.map_cons, List.sum_cons]
      rw [ih]
      rcases lt_or_le y.1 x.1 with h | h
      · rw [if_pos h, if_pos h]; ring
      · rw [if_neg (not_lt.mpr h), if_neg (not_lt.mpr h)]; ring

lemma gt_pairFold (b : List (ℕ × ℚ)) : ∀ (a : List (ℕ × ℚ)) (init : ℚ),
    (a.foldl (fun prob x =>
        b.foldl (fun prob y => if x.1 > y.1 then prob + x.2 * y.2 else prob) prob) init)
      = init + (a.map (fun x =>
          (b.map (fun y => if x.1 > y.1 then x.2 * y.2 else 0)).sum)).sum := by
  intro a
  induction a with
  | nil => intro init; simp
  | cons x a ih =>
      intro init
      simp only [List.foldl_cons, List.map_cons, List.sum_cons]
      rw [ih, gt_innerFold]
      ring

lemma greater_than_eq (a b : PMF) :
    greater_than a b
      = (a.map (fun x =>
          (b.map (fun y => if x.1 > y.1 then x.2 * y.2 else 0)).sum)).sum := by
  unfold greater_than
  rw [gt_pairFold b a 0, zero_add]

lemma sum_sum_comm {α β : Type} (a : List α) (b : List β) (g : α → β → ℚ) :
    (b.map (fun y => (a.map (fun x => g x y)).sum)).sum
      = (a.map (fun x => (b.map (fun y => g x y)).sum)).sum := by
  induction b with
  | nil => simp
  | cons y b ih =>
      simp only [List.map_cons, List.sum_cons, ih]
      rw [← List.sum_map_add]

lemma lookupD_eq_sum (b : PMF) (hb : (b.map (fun kv => kv.1)).Nodup) (k : ℕ) :
    lookupD b k = (b.map (fun y => if y.1 = k then y.2 else 0)).sum := by
  induction b with
  | nil => simp [lookupD]
  | cons e rest ih =>
      simp only [List.map_cons, List.nodup_cons] at hb
      rcases eq_or_ne e.1 k with h | h
      · rw [lookupD, if_pos h]
        simp only [List.map_cons, List.sum_cons, if_pos h]
        have hz : (rest.map (fun y => if y.1 = k then y.2 else 0)).sum = 0 := by
          apply List.sum_eq_zero
          intro q hq
          obtain ⟨y, hy, rfl⟩ := List.mem_map.mp hq
          rw [if_neg]
          intro hyk
          exact hb.1 (h ▸ hyk ▸ List.mem_map_of_mem (fun kv => kv.1) hy)
        rw [hz]; ring
      · rw [lookupD, if_neg h]
        simp only [List.map_cons, List.sum_cons, if_neg h, ih hb.2]
        ring

lemma lookupD_self (a : PMF) (ha : (a.map (fun kv => kv.1)).Nodup) (x : ℕ × ℚ)
    (hx : x ∈ a) : lookupD a x.1 = x.2 := by
  induction a with
  | nil => cases hx
  | cons e rest ih =>
      simp only [List.map_cons, List.nodup_cons] at ha
      rcases List.mem_cons.mp hx with rfl | hx
      · rw [lookupD, if_pos rfl]
      · rw [lookupD]
        rcases eq_or_ne e.1 x.1 with h | h
        · exact absurd (h ▸ List.mem_map_of_mem (fun kv => kv.1) hx) ha.1
        · rw [if_neg h]
          exact ih ha.2 hx

lemma gt_tie_term (k1 k2 : ℕ) (p q : ℚ) :
    (if k1 > k2 then p * q else 0) + (if k2 > k1 then q * p else 0)
      + (if k2 = k1 then p * q else 0) = p * q := by
  rcases lt_trichotomy k1 k2 with h | h | h
  · rw [if_neg (by omega), if_pos h, if_neg (by omega)]; ring
  · rw [if_neg (by omega), if_neg (by omega), if_pos h.symm]; ring
  · rw [if_pos h, if_neg (by omega), if_neg (by omega)]; ring

lemma double_sum_prod (a b : PMF) :
    (a.map (fun x => (b.map (fun y => x.2 * y.2)).sum)).sum = psum a * psum b := by
  simp only [List.sum_map_mul_left]
  rw [psum, psum, ← List.sum_map_mul_right]

/-! ## Claim theorems -/

/-- C1: for every attack whose dice pool is non-empty (at least one
(die, count) entry with count ≥ 1), and for every ac, crit_enabled and
savage setting, the probabilities of the PMF returned by `attack_pmf` sum
to 1.0 (exactly, in the rational model, hence within 1e-9). -/
theorem attack_pmf_normalized (attack : Attack) (ac : ℕ) (ce sv : Bool)
    (h : ∃ dc ∈ attack.dice, 1 ≤ dc.2) :
    psum (attack_pmf attack ac ce sv) = 1 := by
  obtain ⟨dc, hdc, hcnt⟩ := h
  have hbaseMem : ∀ q ∈ attack.dice.flatMap
      (fun dc => List.replicate dc.2 (die_pmf dc.1)), psum q = 1 := by
    intro q hq
    obtain ⟨e, _, hqe⟩ := List.mem_flatMap.mp hq
    rw [List.eq_of_mem_replicate hqe]
    exact psum_die_pmf _
  have hcritMem : ∀ q ∈ attack.dice.flatMap
      (fun dc => List.replicate (2 * dc.2) (die_pmf dc.1)), psum q = 1 := by
    intro q hq
    obtain ⟨e, _, hqe⟩ := List.mem_flatMap.mp hq
    rw [List.eq_of_mem_replicate hqe]
    exact psum_die_pmf _
  have hbaseNe : attack.dice.flatMap (fun dc => List.replicate dc.2 (die_pmf dc.1)) ≠ [] :=
    List.ne_nil_of_mem (List.mem_flatMap.mpr
      ⟨dc, hdc, List.mem_replicate.mpr ⟨by omega, rfl⟩⟩)
  have hcritNe : attack.dice.flatMap (fun dc => List.replicate (2 * dc.2) (die_pmf dc.1)) ≠ [] :=
    List.ne_nil_of_mem (List.mem_flatMap.mpr
      ⟨dc, hdc, List.mem_replicate.mpr ⟨by omega, rfl⟩⟩)
  have hb1 : psum (shift (convolve_many (attack.dice.flatMap
      (fun dc => List.replicate dc.2 (die_pmf dc.1)))) attack.flat) = 1 := by
    rw [psum_shift]; exact psum_convolve_many_one _ hbaseMem hbaseNe
  have hc1 : psum (shift (convolve_many (attack.dice.flatMap
      (fun dc => List.replicate (2 * dc.2) (die_pmf dc.1)))) attack.flat) = 1 := by
    rw [psum_shift]; exact psum_convolve_many_one _ hcritMem hcritNe
  have hb2 : psum (if sv then best_of_two (shift (convolve_many (attack.dice.flatMap
      (fun dc => List.replicate dc.2 (die_pmf dc.1)))) attack.flat)
      else shift (convolve_many (attack.dice.flatMap
      (fun dc => List.replicate dc.2 (die_pmf dc.1)))) attack.flat) = 1 := by
    cases sv
    · simpa using hb1
    · simp only [if_true]; rw [psum_best_of_two, hb1]; norm_num
  have hc2 : psum (if sv then best_of_two (shift (convolve_many (attack.dice.flatMap
      (fun dc => List.replicate (2 * dc.2) (die_pmf dc.1)))) attack.flat)
      else shift (convolve_many (attack.dice.flatMap
      (fun dc => List.replicate (2 * dc.2) (die_pmf dc.1)))) attack.flat) = 1 := by
    cases sv
    · simpa using hc1
    · simp only [if_true]; rw [psum_best_of_two, hc1]; norm_num
  simp only [attack_pmf]
  rw [psum_addTo, psum_merge_foldl, psum_scale, psum_scale, hb2, hc2]
  ring

/-- Witness for C1: the scenario attack has a non-empty dice pool and its
attack PMF at ac = 10 with crit and savage enabled sums to 1. -/
theorem attack_pmf_normalized_witness :
    (∃ dc ∈ atkC3.dice, 1 ≤ dc.2) ∧ psum (attack_pmf atkC3 10 true true) = 1 :=
  ⟨by decide, attack_pmf_normalized atkC3 10 true true (by decide)⟩

/-- C2 (evaluation of the code at the claim's inputs): the code returns
`hit_chance 0 30 = 2/20 = 1/10` and `hit_chance 30 2 = 18/20 = 9/10`,
while the claim (and the tabletop rule: only a natural 20 hits, only a
natural 1 misses) requires 1/20 and 19/20.  The clamp of the needed roll
to [2, 20] already realizes both boundary rules, and the subsequent
−1/20 and +1/20 adjustments double-correct. -/
theorem hit_chance_boundary_eval : hit_chance 0 30 = 1/10 ∧ hit_chance 30 2 = 9/10 := by
  constructor <;> norm_num [hit_chance, hit_chance_pre]

/-- C3 counterexample: the scenario's hit chance is not 0.30 as claimed
(the specification computed (21 − ac)/20 instead of
(21 − (ac − ab))/20). -/
theorem scenario_hit_chance_cex : hit_chance 10 15 ≠ 3/10 := by
  norm_num [hit_chance, hit_chance_pre]

/-- C3 as amended: for the attack `ab = 10, flat = 4, dice = {D4: 1}`
against ac = 15 with crit enabled and savage disabled, the hit chance is
(21 − 5)/20 = 0.80, so `attack_pmf` puts probability 0.20 at damage 0,
mass (0.80 − 0.05)·(1/4) at each non-crit damage value 5, 6, 7, 8, and
adds crit mass 0.05·P(2d4 + 4 = v) at each v in 6..12. -/
theorem scenario_eval :
    hit_chance 10 15 = 16/20
    ∧ lookupD (attack_pmf atkC3 15 true false) 0 = 1 - 16/20
    ∧ lookupD (attack_pmf atkC3 15 true false) 5 = (16/20 - 1/20) * (1/4)
    ∧ lookupD (attack_pmf atkC3 15 true false) 6 = (16/20 - 1/20) * (1/4) + 1/20 * (1/16)
    ∧ lookupD (attack_pmf atkC3 15 true false) 7 = (16/20 - 1/20) * (1/4) + 1/20 * (2/16)
    ∧ lookupD (attack_pmf atkC3 15 true false) 8 = (16/20 - 1/20) * (1/4) + 1/20 * (3/16)
    ∧ lookupD (attack_pmf atkC3 15 true false) 9 = 1/20 * (4/16)
    ∧ lookupD (attack_pmf atkC3 15 true false) 10 = 1/20 * (3/16)
    ∧ lookupD (attack_pmf atkC3 15 true false) 11 = 1/20 * (2/16)
    ∧ lookupD (attack_pmf atkC3 15 true false) 12 = 1/20 * (1/16) := by
  refine ⟨by norm_num [hit_chance, hit_chance_pre], ?_, ?_, ?_, ?_, ?_, ?_, ?_, ?_, ?_⟩ <;>
    norm_num [attack_pmf, atkC3, convolve, convolve_many, addTo, lookupD, die_pmf,
      scale, shift, best_of_two, hit_chance, hit_chance_pre, Die.sides, List.range',
      List.foldl, List.flatMap, List.replicate]

/-- C4 counterexample: for the degenerate attack (all die counts zero,
flat zero) at ac = 10 with crit enabled, the returned map sums to
1 − hit_chance(0, 10) = 9/20, not to 1: the empty dice pool makes
`convolve_many` return the empty map, which annihilates the hit and crit
mass. -/
theorem degenerate_cex :
    psum (attack_pmf atkDeg 10 true false) = 9/20
    ∧ psum (attack_pmf atkDeg 10 true false) ≠ 1 := by
  constructor <;>
    norm_num [attack_pmf, atkDeg, convolve_many, addTo, psum, scale, shift,
      hit_chance, hit_chance_pre, List.flatMap]

/-- C4 as amended: for a degenerate attack (every die count zero and flat
zero), `attack_pmf` returns, for every ac and flag setting, the
single-entry map `{0 ↦ 1 − hit_chance(ab, ac)}` — all mass concentrated
at outcome 0, but summing to `1 − hit_chance`, not 1. -/
theorem attack_pmf_degenerate (attack : Attack) (ac : ℕ) (ce sv : Bool)
    (hdice : ∀ dc ∈ attack.dice, dc.2 = 0) (_hflat : attack.flat = 0) :
    attack_pmf attack ac ce sv = [(0, 1 - hit_chance attack.ab (ac : ℤ))] := by
  have hbase : attack.dice.flatMap (fun dc => List.replicate dc.2 (die_pmf dc.1)) = [] :=
    List.flatMap_eq_nil_iff.mpr (fun dc hdc => by rw [hdice dc hdc]; rfl)
  have hcrit : attack.dice.flatMap (fun dc => List.replicate (2 * dc.2) (die_pmf dc.1)) = [] :=
    List.flatMap_eq_nil_iff.mpr (fun dc hdc => by rw [hdice dc hdc]; rfl)
  simp only [attack_pmf, hbase, hcrit]
  cases sv <;> rfl

/-- Witness for the amended C4: the degenerate attack at ac = 12 with
crit disabled and savage enabled. -/
theorem attack_pmf_degenerate_witness :
    attack_pmf atkDeg 12 false true = [(0, 1 - hit_chance atkDeg.ab ((12 : ℕ) : ℤ))] :=
  attack_pmf_degenerate atkDeg 12 false true (by decide) rfl

/-- C5: `convolve_many []` is the empty map, and a build with zero attacks
gets the same empty policy at both call sites: `calc_build_stats` returns
the empty pmf (hence empty cdf, mean 0, min_dmg_chance 0) and
`calc_build_means` returns 0.0 for each of its 14 AC values. -/
theorem empty_build_policy (sv ce : Bool) (sim_ac desired_min_dmg : ℕ) :
    convolve_many [] = ([] : PMF)
    ∧ (calc_build_stats ⟨[], sv, ce⟩ sim_ac desired_min_dmg).pmf = []
    ∧ (calc_build_stats ⟨[], sv, ce⟩ sim_ac desired_min_dmg).cdf = []
    ∧ (calc_build_stats ⟨[], sv, ce⟩ sim_ac desired_min_dmg).mean = 0
    ∧ (calc_build_stats ⟨[], sv, ce⟩ sim_ac desired_min_dmg).min_dmg_chance = 0
    ∧ calc_build_means ⟨[], sv, ce⟩ = List.replicate 14 0 :=
  ⟨rfl, rfl, by show cdf [] = []; simp [cdf, cdfRun], rfl, rfl, rfl⟩

/-- C6: for every pair of maps `a` and `b` with unique keys (the `HashMap`
invariant) each summing to 1.0, `greater_than a b + greater_than b a +
P(tie)` equals 1.0 exactly, where `P(tie)` is the sum over every value `v`
of `a[v] * b[v]`. -/
theorem greater_than_complement (a b : PMF)
    (hna : (a.map (fun kv => kv.1)).Nodup) (hnb : (b.map (fun kv => kv.1)).Nodup)
    (ha : psum a = 1) (hb : psum b = 1) :
    greater_than a b + greater_than b a + tie_mass a b = 1 := by
  have htie : tie_mass a b
      = (a.map (fun x => (b.map (fun y => if y.1 = x.1 then x.2 * y.2 else 0)).sum)).sum := by
    unfold tie_mass
    have hpt : ∀ x ∈ a, lookupD a x.1 * lookupD b x.1
        = (b.map (fun y => if y.1 = x.1 then x.2 * y.2 else 0)).sum := by
      intro x hx
      rw [lookupD_self a hna x hx, lookupD_eq_sum b hnb x.1, ← List.sum_map_mul_left]
      simp only [mul_ite, mul_zero]
    rw [List.map_congr_left hpt]
  rw [greater_than_eq a b, greater_than_eq b a, htie]
  rw [sum_sum_comm a b (fun x y => if y.1 > x.1 then y.2 * x.2 else 0)]
  rw [← List.sum_map_add, ← List.sum_map_add]
  simp only [← List.sum_map_add, gt_tie_term]
  rw [double_sum_prod a b, ha, hb, one_mul]

/-- Witness for C6: the point masses at 0 and at 1. -/
theorem greater_than_complement_witness :
    psum [((0:ℕ), (1:ℚ))] = 1 ∧ psum [((1:ℕ), (1:ℚ))] = 1
    ∧ greater_than [((0:ℕ), (1:ℚ))] [((1:ℕ), (1:ℚ))]
      + greater_than [((1:ℕ), (1:ℚ))] [((0:ℕ), (1:ℚ))]
      + tie_mass [((0:ℕ), (1:ℚ))] [((1:ℕ), (1:ℚ))] = 1 :=
  ⟨by simp [psum], by simp [psum],
    greater_than_complement _ _ (by simp) (by simp) (by simp [psum]) (by simp [psum])⟩

/-- C7: for any pmf (non-negative values summing to 1, the PMF invariant),
the mean of `best_of_two pmf` is at least the mean of `pmf`. -/
theorem mean_best_of_two_ge (p : PMF) (hp : ∀ kv ∈ p, 0 ≤ kv.2) (h1 : psum p = 1) :
    mean p ≤ mean (best_of_two p) := by
  have key : (p.map (fun x => (p.map (fun y => ((x.1 : ℚ)) * (x.2 * y.2))).sum)).sum
      = mean p := by
    simp only [← mul_assoc, List.sum_map_mul_left]
    rw [show (p.map (fun y => y.2)).sum = psum p from rfl, h1]
    simp [mean]
  calc mean p
      = (p.map (fun x => (p.map (fun y => ((x.1 : ℚ)) * (x.2 * y.2))).sum)).sum := key.symm
    _ ≤ (p.map (fun x => (p.map (fun y => ((max x.1 y.1 : ℕ) : ℚ) * (x.2 * y.2))).sum)).sum := by
        apply List.sum_le_sum
        intro x hx
        apply List.sum_le_sum
        intro y hy
        have hmax : ((x.1 : ℚ)) ≤ ((max x.1 y.1 : ℕ) : ℚ) := by
          exact_mod_cast le_max_left x.1 y.1
        exact mul_le_mul_of_nonneg_right hmax (mul_nonneg (hp x hx) (hp y hy))
    _ = mean (best_of_two p) := by
        rw [mean_eq_wsum, wsum_best_of_two]

/-- Witness for C7: the point mass at 2. -/
theorem mean_best_of_two_ge_witness :
    psum [((2:ℕ), (1:ℚ))] = 1
    ∧ mean [((2:ℕ), (1:ℚ))] ≤ mean (best_of_two [((2:ℕ), (1:ℚ))]) :=
  ⟨by simp [psum], mean_best_of_two_ge _ (by simp) (by simp [psum])⟩

/-- C8: every probability value stored in the map returned by `attack_pmf`
is non-negative; in particular the non-crit weight
`hit_chance − crit_chance` (which is `hit_chance − 1/20` when crit is
enabled) and the miss weight `1 − hit_chance` are both non-negative. -/
theorem attack_pmf_nonneg (attack : Attack) (ac : ℕ) (ce sv : Bool) (kv : ℕ × ℚ)
    (hkv : kv ∈ attack_pmf attack ac ce sv) :
    0 ≤ kv.2
    ∧ 0 ≤ hit_chance attack.ab (ac : ℤ) - (if ce then 1/20 else 0)
    ∧ 0 ≤ 1 - hit_chance attack.ab (ac : ℤ) := by
  have hb := hit_chance_bounds attack.ab (ac : ℤ)
  have hsplit : 0 ≤ hit_chance attack.ab (ac : ℤ) - (if ce then 1/20 else 0) := by
    cases ce
    · simp only [Bool.false_eq_true, if_false, sub_zero]
      exact le_trans (by norm_num) hb.1
    · simp only [if_true]
      linarith [hb.1]
  have hmiss : 0 ≤ 1 - hit_chance attack.ab (ac : ℤ) := by linarith [hb.2]
  refine ⟨?_, hsplit, hmiss⟩
  have hpool : ∀ (f : Die × ℕ → ℕ),
      nonneg (convolve_many (attack.dice.flatMap
        (fun dc => List.replicate (f dc) (die_pmf dc.1)))) := by
    intro f
    apply nonneg_convolve_many
    intro q hq
    obtain ⟨e, _, hqe⟩ := List.mem_flatMap.mp hq
    rw [List.eq_of_mem_replicate hqe]
    exact nonneg_die_pmf _
  have hbase : nonneg (if sv then best_of_two (shift (convolve_many (attack.dice.flatMap
      (fun dc => List.replicate dc.2 (die_pmf dc.1)))) attack.flat)
      else shift (convolve_many (attack.dice.flatMap
      (fun dc => List.replicate dc.2 (die_pmf dc.1)))) attack.flat) := by
    have h0 := nonneg_shift (hpool (fun dc => dc.2)) attack.flat
    cases sv
    · simpa using h0
    · simpa using nonneg_best_of_two h0
  have hcrit : nonneg (if sv then best_of_two (shift (convolve_many (attack.dice.flatMap
      (fun dc => List.replicate (2 * dc.2) (die_pmf dc.1)))) attack.flat)
      else shift (convolve_many (attack.dice.flatMap
      (fun dc => List.replicate (2 * dc.2) (die_pmf dc.1)))) attack.flat) := by
    have h0 := nonneg_shift (hpool (fun dc => 2 * dc.2)) attack.flat
    cases sv
    · simpa using h0
    · simpa using nonneg_best_of_two h0
  have hcc : (0:ℚ) ≤ (if ce then 1/20 else 0) := by
    cases ce <;> simp
  have hn : nonneg (attack_pmf attack ac ce sv) := by
    simp only [attack_pmf]
    apply nonneg_addTo _ _ _ ?_ hmiss
    exact nonneg_merge_foldl (nonneg_scale hbase hsplit) (nonneg_scale hcrit hcc)
  exact hn kv hkv

/-- Witness for C8: the single entry of the degenerate attack's PMF at
ac = 10 carries the non-negative miss weight. -/
theorem attack_pmf_nonneg_witness :
    ((0:ℕ), 1 - hit_chance atkDeg.ab ((10:ℕ) : ℤ)) ∈ attack_pmf atkDeg 10 true false
    ∧ 0 ≤ 1 - hit_chance atkDeg.ab ((10:ℕ) : ℤ) :=
  have hmem : ((0:ℕ), 1 - hit_chance atkDeg.ab ((10:ℕ) : ℤ))
      ∈ attack_pmf atkDeg 10 true false := by
    rw [show attack_pmf atkDeg 10 true false
      = [(0, 1 - hit_chance atkDeg.ab ((10:ℕ) : ℤ))] from rfl]
    exact List.mem_singleton.mpr rfl
  ⟨hmem, (attack_pmf_nonneg atkDeg 10 true false _ hmem).2.2⟩

/-- C9: `calc_build_means` returns exactly 14 values, the i-th being the
mean of the aggregate PMF (the convolution of `attack_pmf` of each attack)
at AC = 10 + i, i.e. one mean per AC 10..23 in ascending order. -/
theorem calc_build_means_spec (build : Build) :
    (calc_build_means build).length = 14 ∧
    ∀ i : ℕ, i < 14 →
      (calc_build_means build).getD i 0
        = mean (convolve_many (build.attacks.map
            (fun a => attack_pmf a (10 + i) build.crit_enabled build.savage))) := by
  constructor
  · simp [calc_build_means, AC_MIN, AC_MAX]
  · intro i hi
    have hlen : i < (calc_build_means build).length := by
      simpa [calc_build_means, AC_MIN, AC_MAX] using hi
    rw [List.getD_eq_getElem (calc_build_means build) 0 hlen]
    simp only [calc_build_means, AC_MIN, AC_MAX, List.getElem_map, List.getElem_range']
    norm_num

/-- Witness for C9: the first mean of the one-attack build is the mean of
its aggregate PMF at AC 10. -/
theorem calc_build_means_spec_witness :
    (calc_build_means buildC9).getD 0 0
      = mean (convolve_many (buildC9.attacks.map
          (fun a => attack_pmf a (10 + 0) buildC9.crit_enabled buildC9.savage))) :=
  (calc_build_means_spec buildC9).2 0 (by decide)

/-- C10: for every pair of integers ab and ac, `hit_chance` lies in
[1/20, 19/20]; the final clamp to [0, 1] never changes the computed value
(the clamped result equals the pre-clamp value), and both a hit and a miss
have non-zero probability (0 < hit_chance < 1). -/
theorem hit_chance_in_range (ab ac : ℤ) :
    1/20 ≤ hit_chance ab ac ∧ hit_chance ab ac ≤ 19/20
    ∧ hit_chance ab ac = hit_chance_pre ab ac
    ∧ 0 < hit_chance ab ac ∧ hit_chance ab ac < 1 := by
  obtain ⟨h1, h2⟩ := hit_chance_bounds ab ac
  exact ⟨h1, h2, hit_chance_eq_pre ab ac, by linarith, by linarith⟩

end DnD
